import Mathlib

/-!
Verification of the fib75 watch-state engine (`src/main.py`).

The program tracks, per chat (owner) and contract (instrument), a watch
entry with exact-decimal bounds, a derived retracement level and band,
and a small alert state machine driven by a polling loop.  Python
`Decimal` values are embedded as exact mantissa-times-power-of-ten pairs
(`Dec`); their rational value gives the ordering the program uses.
Strings are embedded as `List Char`; JSON documents as a `Json` tree.
External effects (the HTTP price source, Telegram delivery) enter as
explicit oracle arguments.
-/

namespace Fib75

/-- A Python `Decimal` value: mantissa `m` times `10 ^ e`.  The program
only ever builds finite decimals (user input, arithmetic on it, and
parsed price strings); `NaN`/`Infinity` forms are outside the model.
Arithmetic is embedded exactly: Python's default 28-significant-digit
context performs these operations without rounding at the magnitudes of
USD price bounds, which is the exact-decimal arithmetic the spec
requires. -/
structure Dec where
  m : Int
  e : Int
deriving DecidableEq, Repr

/-- Rational value of a decimal (computable: no `zpow` in the body). -/

def Dec.val (d : Dec) : ℚ :=
  if 0 ≤ d.e then (d.m : ℚ) * (10 : ℚ) ^ d.e.toNat
  else (d.m : ℚ) / (10 : ℚ) ^ (-d.e).toNat

/-- Exact decimal addition (exponent alignment, as exact arithmetic). -/
def Dec.add (a b : Dec) : Dec :=
  if a.e ≤ b.e then ⟨a.m + b.m * 10 ^ (b.e - a.e).toNat, a.e⟩
  else ⟨a.m * 10 ^ (a.e - b.e).toNat + b.m, b.e⟩

def Dec.neg (a : Dec) : Dec := ⟨-a.m, a.e⟩

def Dec.sub (a b : Dec) : Dec := a.add b.neg

/-- Exact decimal multiplication. -/

def Dec.mul (a b : Dec) : Dec := ⟨a.m * b.m, a.e + b.e⟩

/-- Integer comparison keys for two decimals brought to a common
exponent; used to decide ordering without rational arithmetic. -/
def Dec.keys (a b : Dec) : Int × Int :=
  (a.m * 10 ^ (a.e - min a.e b.e).toNat, b.m * 10 ^ (b.e - min a.e b.e).toNat)

/-- Value comparison of decimals, as Python `Decimal` comparison. -/

def Dec.le (a b : Dec) : Bool := (Dec.keys a b).1 ≤ (Dec.keys a b).2

/-- Strict value comparison of decimals. -/

def Dec.lt (a b : Dec) : Bool := (Dec.keys a b).1 < (Dec.keys a b).2

def dec025 : Dec := ⟨25, -2⟩

def dec098 : Dec := ⟨98, -2⟩

def dec102 : Dec := ⟨102, -2⟩

/-- Source: `compute_fib75(L, H) = L + Decimal("0.25") * (H - L)`. -/

def compute_fib75 (L H : Dec) : Dec := L.add (dec025.mul (H.sub L))

/-- Source: `band_bounds(fib75) = (fib75 * 0.98, fib75 * 1.02)`. -/

def band_bounds (fib75 : Dec) : Dec × Dec :=
  (fib75.mul dec098, fib75.mul dec102)

/-- Source: `within_band(price, lo, hi) = lo <= price <= hi`. -/

def within_band (price lo hi : Dec) : Bool :=
  Dec.le lo price && Dec.le price hi

abbrev Str := List Char

def digCh (d : ℕ) : Char := Char.ofNat (48 + d)

def digitVal (c : Char) : ℕ := c.toNat - 48

def isDigitCh (c : Char) : Bool := decide (48 ≤ c.toNat) && decide (c.toNat ≤ 57)

/-- Big-endian digit string of a natural number (`"0"` for zero). -/

def natToDigitsBE (n : ℕ) : Str :=
  if n = 0 then ['0'] else ((Nat.digits 10 n).map digCh).reverse

/-- Numeric value of a big-endian digit string. -/

def valFromDigits (cs : Str) : ℕ := cs.foldl (fun a c => 10 * a + digitVal c) 0

/-- Splits a string at the first character satisfying `p`; the second
component is `none` when no such character occurs. -/

def breakAt (p : Char → Bool) : Str → Str × Option Str
  | [] => ([], none)
  | c :: cs =>
    if p c then ([], some cs)
    else (c :: (breakAt p cs).1, (breakAt p cs).2)

/-- Optional leading sign of a numeral. -/

def parseSign : Str → Bool × Str
  | [] => (false, [])
  | c :: r => if c = '-' then (true, r) else if c = '+' then (false, r) else (false, c :: r)

def parseUnsigned (cs : Str) : Option ℕ :=
  if cs.isEmpty then none
  else if cs.all isDigitCh then some (valFromDigits cs) else none

def intOfSign (neg : Bool) (n : ℕ) : Int := if neg then -(n : Int) else (n : Int)

/-- Python `int(string)` on sign-and-digits numerals. -/

def parseIntStr (cs : Str) : Option Int :=
  match parseUnsigned (parseSign cs).2 with
  | some n => some (intOfSign (parseSign cs).1 n)
  | none => none

def isExpCh (c : Char) : Bool := c = 'E' || c = 'e'

def isDotCh (c : Char) : Bool := c = '.'

/-- Mantissa-and-exponent part of `Decimal(string)`, after the sign. -/

def parseDecAfterSign (neg : Bool) (cs : Str) : Option Dec :=
  let br := breakAt isExpCh cs
  let ev? : Option Int :=
    match br.2 with
    | none => some 0
    | some es => parseIntStr es
  match ev? with
  | none => none
  | some ev =>
    let dt := breakAt isDotCh br.1
    let fp : Str := dt.2.getD []
    if dt.1.isEmpty && fp.isEmpty then none
    else if dt.1.all isDigitCh && fp.all isDigitCh then
      some ⟨intOfSign neg (valFromDigits (dt.1 ++ fp)), ev - fp.length⟩
    else none

/-- Python `Decimal(string)` on finite numerals. -/

def parseDec (cs : Str) : Option Dec :=
  parseDecAfterSign (parseSign cs).1 (parseSign cs).2

/-- Python `str(int)`. -/

def intToString (z : Int) : Str :=
  if z < 0 then '-' :: natToDigitsBE z.natAbs else natToDigitsBE z.natAbs

/-- Python `"%+d" % z` (always-signed integer), used for the exponent. -/

def signedIntToString (z : Int) : Str :=
  (if z < 0 then '-' else '+') :: natToDigitsBE z.natAbs

/-- Unsigned part of `str(Decimal)` given the coefficient digit string
and the exponent, following the to-scientific-string algorithm. -/

def decCore (digits : Str) (e : Int) : Str :=
  if e ≤ 0 ∧ -6 < e + (digits.length : Int) then
    if e + (digits.length : Int) ≤ 0 then
      '0' :: '.' :: (List.replicate (-(e + (digits.length : Int))).toNat '0' ++ digits)
    else if (digits.length : Int) ≤ e + (digits.length : Int) then
      digits ++ List.replicate (e + (digits.length : Int) - digits.length).toNat '0'
    else
      digits.take (e + (digits.length : Int)).toNat ++
        '.' :: digits.drop (e + (digits.length : Int)).toNat
  else
    (if digits.length ≤ 1 then digits
     else digits.take 1 ++ '.' :: digits.drop 1) ++
      'E' :: signedIntToString (e + (digits.length : Int) - 1)

/-- Python `str(Decimal)` on finite decimals. -/

def decToString (d : Dec) : Str :=
  (if d.m < 0 then ['-'] else []) ++ decCore (natToDigitsBE d.m.natAbs) d.e

inductive Json where
  | null : Json
  | bool (b : Bool) : Json
  | num (n : Int) : Json
  | str (s : Str) : Json
  | arr (elems : List Json) : Json
  | obj (fields : List (Str × Json)) : Json

/-- One watch entry, as the dict `add_cmd` builds. -/

structure EntrySt where
  name : Str
  L : Dec
  H : Dec
  fib75 : Dec
  band : Dec × Dec
  status : Str
  first_tick : Bool
  alerts_sent : Int
  pair : Json
  last_price : Option Dec

/-- The global `chat_state`: owner id to contract id to entry. -/

abbrev State := List (Int × List (Str × EntrySt))

def kName : Str := ['n', 'a', 'm', 'e']

def kL : Str := ['L']

def kH : Str := ['H']

def kFib75 : Str := ['f', 'i', 'b', '7', '5']

def kBand : Str := ['b', 'a', 'n', 'd']

def kStatus : Str := ['s', 't', 'a', 't', 'u', 's']

def kFirstTick : Str := ['f', 'i', 'r', 's', 't', '_', 't', 'i', 'c', 'k']

def kAlertsSent : Str := ['a', 'l', 'e', 'r', 't', 's', '_', 's', 'e', 'n', 't']

def kPair : Str := ['p', 'a', 'i', 'r']

def kLastPrice : Str := ['l', 'a', 's', 't', '_', 'p', 'r', 'i', 'c', 'e']

def kOutside : Str := ['o', 'u', 't', 's', 'i', 'd', 'e']

def kInside : Str := ['i', 'n', 's', 'i', 'd', 'e']

def jLookup : List (Str × Json) → Str → Option Json
  | [], _ => none
  | (k, v) :: rest, key => if k = key then some v else jLookup rest key

/-- JSON image of one entry dict, decimals as exact decimal strings. -/

def entry_to_jsonable (st : EntrySt) : List (Str × Json) :=
  [(kName, Json.str st.name),
   (kL, Json.str (decToString st.L)),
   (kH, Json.str (decToString st.H)),
   (kFib75, Json.str (decToString st.fib75)),
   (kBand, Json.arr [Json.str (decToString st.band.1), Json.str (decToString st.band.2)]),
   (kStatus, Json.str st.status),
   (kFirstTick, Json.bool st.first_tick),
   (kAlertsSent, Json.num st.alerts_sent),
   (kPair, st.pair),
   (kLastPrice, match st.last_price with
     | some d => Json.str (decToString d)
     | none => Json.null)]

/-- Source: `_state_to_jsonable`. -/

def state_to_jsonable (s : State) : Json :=
  Json.obj (s.map (fun cm => (intToString cm.1,
    Json.obj (cm.2.map (fun ke => (ke.1, Json.obj (entry_to_jsonable ke.2)))))))

/-- A decimal field restored from JSON: an unparseable string defaults
to `0` (the `except` arm of the source). -/

def decodeDecField (fields : List (Str × Json)) (key : Str) : Dec :=
  match jLookup fields key with
  | some (Json.str s) => (parseDec s).getD ⟨0, 0⟩
  | _ => ⟨0, 0⟩

/-- One band element through `Decimal(x)`: a string is parsed, an
integer JSON number converts exactly, anything else raises. -/

def decodeBandElem (j : Json) : Option Dec :=
  match j with
  | Json.str s => parseDec s
  | Json.num n => some ⟨n, 0⟩
  | _ => none

/-- The `band` pair: a two-element list whose elements both convert;
any failure defaults the pair to `(0, 0)`. -/

def decodeBand (fields : List (Str × Json)) : Dec × Dec :=
  match jLookup fields kBand with
  | some (Json.arr [a, b]) =>
    match decodeBandElem a, decodeBandElem b with
    | some da, some db => (da, db)
    | _, _ => (⟨0, 0⟩, ⟨0, 0⟩)
  | _ => (⟨0, 0⟩, ⟨0, 0⟩)

/-- One entry restored from its JSON dict, with the source's sanity
defaults for missing fields. -/

def jsonable_to_entry (fields : List (Str × Json)) : EntrySt :=
  { name := match jLookup fields kName with | some (Json.str s) => s | _ => []
    L := decodeDecField fields kL
    H := decodeDecField fields kH
    fib75 := decodeDecField fields kFib75
    band := decodeBand fields
    status := match jLookup fields kStatus with | some (Json.str s) => s | _ => kOutside
    first_tick := match jLookup fields kFirstTick with | some (Json.bool b) => b | _ => true
    alerts_sent := match jLookup fields kAlertsSent with | some (Json.num n) => n | _ => 0
    pair := (jLookup fields kPair).getD (Json.obj [])
    last_price := match jLookup fields kLastPrice with
      | some (Json.str s) => parseDec s
      | _ => none }

/-- The contracts of one owner; a non-dict entry value raises out of
`_jsonable_to_state` (modelled as `none`). -/

def decodeContracts : List (Str × Json) → Option (List (Str × EntrySt))
  | [] => some []
  | (ck, Json.obj ef) :: rest =>
    match decodeContracts rest with
    | some r => some ((ck, jsonable_to_entry ef) :: r)
    | none => none
  | _ => none

/-- Source: `_jsonable_to_state`.  An owner key that does not parse as
an integer skips that owner's whole block. -/

def jsonable_to_state : List (Str × Json) → Option State
  | [] => some []
  | (k, v) :: rest =>
    match parseIntStr k with
    | none => jsonable_to_state rest
    | some chat =>
      match v with
      | Json.obj cf =>
        match decodeContracts cf, jsonable_to_state rest with
        | some cs, some r => some ((chat, cs) :: r)
        | _, _ => none
      | _ => none

/-- Python falsiness of a JSON value (for the `data or {}` guard). -/

def jFalsy : Json → Bool
  | Json.null => true
  | Json.bool b => !b
  | Json.num n => n == 0
  | Json.str s => s.isEmpty
  | Json.arr xs => xs.isEmpty
  | Json.obj fs => fs.isEmpty

/-- Top of `_jsonable_to_state`: falsy data becomes the empty dict; a
non-dict truthy value raises (`.items()`). -/

def jsonable_to_state_top (j : Json) : Option State :=
  if jFalsy j then some []
  else
    match j with
    | Json.obj fs => jsonable_to_state fs
    | _ => none

/-- Source: `load_state`.  `file` is the parsed snapshot (`none` when
the file is absent or unreadable); any failure inside deserialization
leaves the previous in-memory state in place (the `except` arm). -/

def load_state (file : Option Json) (prev : State) : State :=
  match file with
  | none => prev
  | some j => (jsonable_to_state_top j).getD prev

structure Token where
  symbol : Option Str
  name : Option Str

structure Pair where
  url : Option Str
  dexId : Option Str
  baseToken : Option Token
  quoteToken : Option Token
  priceUsd : Option Str

/-- Python `x or y` on strings (empty is falsy). -/

def pyOr (a b : Str) : Str := if a.isEmpty then b else a

/-- A possibly-absent string read defensively (`None` acts falsy). -/

def optS (o : Option Str) : Str := o.getD []

def kTokenDflt : Str := ['T', 'o', 'k', 'e', 'n']

/-- Source idiom `(tok or {}).get("symbol") or (tok or {}).get("name")
or dflt` for a token's display symbol. -/

def tokenSym (t : Option Token) (dflt : Str) : Str :=
  pyOr (optS (t.bind Token.symbol)) (pyOr (optS (t.bind Token.name)) dflt)

def defaultPairUrl : Str := "https://dexscreener.com/solana".toList

/-- Source: `build_pair_url(pair) = pair.get("url") or default`. -/

def build_pair_url (p : Pair) : Str := pyOr (optS p.url) defaultPairUrl

/-- Source: `get_price_usd_from_pair`; an absent or unparseable
`priceUsd` yields no price. -/

def get_price_usd_from_pair (p : Pair) : Option Dec :=
  match p.priceUsd with
  | none => none
  | some s => parseDec s

def kUrl : Str := ['u', 'r', 'l']

def kDex : Str := ['d', 'e', 'x']

def kBase : Str := ['b', 'a', 's', 'e']

def kQuote : Str := ['q', 'u', 'o', 't', 'e']

def optStrJson (o : Option Str) : Json :=
  match o with
  | some s => Json.str s
  | none => Json.null

/-- The `st["pair"] = {url, dex, base, quote}` dict from `poll_job`. -/

def pairInfoJson (p : Pair) : Json :=
  Json.obj [(kUrl, Json.str (build_pair_url p)),
    (kDex, optStrJson p.dexId),
    (kBase, Json.str (tokenSym p.baseToken kTokenDflt)),
    (kQuote, Json.str (tokenSym p.quoteToken []))]

/-- The auto display name `base/quote` (or `base`) from `poll_job`. -/

def autoName (p : Pair) : Str :=
  if !(tokenSym p.baseToken kTokenDflt).isEmpty &&
      !(tokenSym p.quoteToken []).isEmpty then
    tokenSym p.baseToken kTokenDflt ++ '/' :: tokenSym p.quoteToken []
  else tokenSym p.baseToken kTokenDflt

/-- Result of processing one entry in a cycle: its new value, whether
it is slated for removal, whether it flagged `changed`, whether an
alert message was emitted, and whether delivery succeeded. -/

structure StepRes where
  st : EntrySt
  remove : Bool
  changed : Bool
  alerted : Bool
  delivered : Bool

def noStep (st : EntrySt) : StepRes := ⟨st, false, false, false, false⟩

/-- The body of `poll_job`'s inner loop for one entry: the retire
guard, the fetch, the metadata/name refresh, the alert transition, and
the unconditional `last_price` update. -/

def pollEntry (st : EntrySt) (fetch : Option Pair) (deliverOk : Bool) : StepRes :=
  if st.alerts_sent ≥ 2 then ⟨st, true, true, false, false⟩
  else
    match fetch with
    | none => noStep st
    | some pair =>
      match get_price_usd_from_pair pair with
      | none => noStep st
      | some price =>
        let st1 : EntrySt := { st with pair := pairInfoJson pair }
        let nameCh : Bool := st1.name.isEmpty
        let st2 : EntrySt := if nameCh then { st1 with name := autoName pair } else st1
        let inside : Bool := within_band price st2.band.1 st2.band.2
        if inside && (decide (st2.status = kOutside) || st2.first_tick) then
          { st := { st2 with
              alerts_sent := st2.alerts_sent + 1,
              status := kInside,
              first_tick := false,
              last_price := some price },
            remove := decide (st2.alerts_sent + 1 ≥ 2),
            changed := true,
            alerted := decide (st2.alerts_sent + 1 ≤ 2),
            delivered := decide (st2.alerts_sent + 1 ≤ 2) && deliverOk }
        else
          { st := { st2 with
              status := (if inside then kInside else kOutside),
              last_price := some price },
            remove := false,
            changed := nameCh || decide ((if inside then kInside else kOutside) ≠ st2.status),
            alerted := false,
            delivered := false }

abbrev Oracle := Int → Str → Option Pair

abbrev Deliver := Int → Str → Bool

/-- One owner's contracts for one cycle: every entry is processed and
the ones slated for removal are popped afterwards. -/

def pollContracts (chat : Int) (m : List (Str × EntrySt)) (o : Oracle) (dv : Deliver) :
    List (Str × EntrySt) × Bool :=
  let rs := m.map (fun ke => (ke.1, pollEntry ke.2 (o chat ke.1) (dv chat ke.1)))
  (rs.filterMap (fun kr => if kr.2.remove then none else some (kr.1, kr.2.st)),
    rs.any (fun kr => kr.2.changed))

/-- Source: `poll_job` over the whole collection; the second component
is the cycle's `changed` flag that gates `save_state()`. -/

def poll_job (s : State) (o : Oracle) (dv : Deliver) : State × Bool :=
  (s.map (fun cm => (cm.1, (pollContracts cm.1 cm.2 o dv).1)),
    s.any (fun cm => (pollContracts cm.1 cm.2 o dv).2))

/-- Number of `save_state()` invocations a cycle performs. -/

def save_calls (s : State) (o : Oracle) (dv : Deliver) : ℕ :=
  if (poll_job s o dv).2 then 1 else 0

def lookupC : List (Str × EntrySt) → Str → Option EntrySt
  | [], _ => none
  | (k, e) :: rest, key => if k = key then some e else lookupC rest key

def lookupChat : State → Int → Option (List (Str × EntrySt))
  | [], _ => none
  | (c, m) :: rest, chat => if c = chat then some m else lookupChat rest chat

def lookupEntry (s : State) (chat : Int) (key : Str) : Option EntrySt :=
  match lookupChat s chat with
  | none => none
  | some m => lookupC m key

/-- One entry followed across consecutive cycles (its fetch result per
cycle given as a list); counts the alerts it receives, and tracks its
removal from the collection. -/

def runEntry : Option EntrySt → List (Option Pair) → Bool → Option EntrySt × ℕ
  | none, _, _ => (none, 0)
  | some st, [], _ => (some st, 0)
  | some st, f :: fs, dv =>
    (((runEntry (if (pollEntry st f dv).remove then none else some (pollEntry st f dv).st) fs dv)).1,
      (if (pollEntry st f dv).alerted then 1 else 0) +
        ((runEntry (if (pollEntry st f dv).remove then none else some (pollEntry st f dv).st) fs dv)).2)

/-- A fetch result that yields a price inside the given band. -/

def insideFetch (band : Dec × Dec) (f : Option Pair) : Prop :=
  ∃ p q, f = some p ∧ get_price_usd_from_pair p = some q ∧
    within_band q band.1 band.2 = true

/-- Fields whose mutation the cycle counts as a change (removal,
status flip, name backfill, alert counter); `last_price` and the
`pair` metadata are deliberately absent. -/

def obsChanged (st : EntrySt) (r : StepRes) : Bool :=
  r.remove || decide (r.st.status ≠ st.status) || decide (r.st.name ≠ st.name) ||
    decide (r.st.alerts_sent ≠ st.alerts_sent)

def fetchFails (f : Option Pair) : Prop :=
  f = none ∨ ∃ p, f = some p ∧ get_price_usd_from_pair p = none

def dvTrue : Deliver := fun _ _ => true

def pairC6 : Pair :=
  { url := none, dexId := none, baseToken := none, quoteToken := none,
    priceUsd := some ['1', '.', '2', '6'] }

def entryC6 : EntrySt :=
  { name := ['T'], L := ⟨1, 0⟩, H := ⟨2, 0⟩, fib75 := ⟨125, -2⟩,
    band := (⟨1225, -3⟩, ⟨1275, -3⟩), status := kInside, first_tick := false,
    alerts_sent := 1, pair := Json.obj [], last_price := some ⟨13, -1⟩ }

def stateC6 : State := [(1, [(['c'], entryC6)])]

def oracleC6 : Oracle := fun _ _ => some pairC6


def egEntry : EntrySt :=
  { name := ['T'], L := ⟨1, 0⟩, H := ⟨2, 0⟩, fib75 := ⟨125, -2⟩,
    band := (⟨1225, -3⟩, ⟨1275, -3⟩), status := kOutside, first_tick := true,
    alerts_sent := 0, pair := Json.obj [], last_price := none }

def oracleNone : Oracle := fun _ _ => none

def stateEg : State := [(1, [(['c'], egEntry)])]


def oracle7 : Oracle := fun _ _ => none

def state7 : State := [(1, [(['a'], egEntry), (['b'], egEntry)])]

def oracle7' : Oracle := fun c k => if c = 1 ∧ k = ['a'] then some pairC6 else none


inductive AddRes where
  | numberErr : AddRes
  | invalidRange : AddRes
  | noPair : AddRes
  | ok : AddRes
deriving DecidableEq, Repr

/-- Source: `ensure_chat` — inserts an empty block for a new owner. -/

def ensure_chat (s : State) (chat : Int) : State :=
  if (lookupChat s chat).isSome then s else s ++ [(chat, [])]

/-- Python dict assignment on one owner's contracts: an existing key is
overwritten in place, a new key is appended. -/

def insertC (m : List (Str × EntrySt)) (k : Str) (e : EntrySt) :
    List (Str × EntrySt) :=
  if (lookupC m k).isSome then m.map (fun ke => if ke.1 = k then (k, e) else ke)
  else m ++ [(k, e)]

def insertEntry (s : State) (chat : Int) (k : Str) (e : EntrySt) : State :=
  s.map (fun cm => if cm.1 = chat then (cm.1, insertC cm.2 k e) else cm)

/-- The entry dict `add_cmd` stores: fresh state machine, band derived
from the bounds, display name from the argument or the pair. -/

def mkEntry (L H : Dec) (nameGiven : Str) (p : Pair) : EntrySt :=
  { name := if nameGiven.isEmpty then autoName p else nameGiven,
    L := L, H := H,
    fib75 := compute_fib75 L H,
    band := band_bounds (compute_fib75 L H),
    status := kOutside,
    first_tick := true,
    alerts_sent := 0,
    pair := Json.obj [],
    last_price := none }

/-- Source: `add_cmd`.  Returns the reply kind, the new state and
whether the price source was queried. -/

def add_cmd (s : State) (chat : Int) (contract : Str) (Ls Hs : Str)
    (nameGiven : Str) (fetch : Option Pair) : AddRes × State × Bool :=
  let s1 := ensure_chat s chat
  match parseDec Ls with
  | none => (AddRes.numberErr, s1, false)
  | some L =>
    match parseDec Hs with
    | none => (AddRes.numberErr, s1, false)
    | some H =>
      if Dec.lt L H then
        match fetch with
        | none => (AddRes.noPair, s1, true)
        | some p => (AddRes.ok, insertEntry s1 chat contract (mkEntry L H nameGiven p), true)
      else (AddRes.invalidRange, s1, false)

def pairOk : Pair :=
  { url := none, dexId := none,
    baseToken := some { symbol := some ['T', 'K'], name := none },
    quoteToken := none, priceUsd := some ['1'] }


theorem Dec.val_eq_zpow (d : Dec) : d.val = (d.m : ℚ) * (10 : ℚ) ^ d.e := by
  unfold Dec.val
  split
  · rw [← zpow_natCast, Int.toNat_of_nonneg (by assumption)]
  · rw [div_eq_mul_inv, ← zpow_natCast, Int.toNat_of_nonneg (by omega),
      ← zpow_neg, neg_neg]


theorem ten_zpow_pos (e : Int) : (0 : ℚ) < (10 : ℚ) ^ e :=
  zpow_pos (by norm_num) e

theorem Dec.val_add (a b : Dec) : (a.add b).val = a.val + b.val := by
  unfold Dec.add
  split <;>
  · rw [Dec.val_eq_zpow, Dec.val_eq_zpow, Dec.val_eq_zpow]
    push_cast
    rw [← zpow_natCast (10 : ℚ), Int.toNat_of_nonneg (by omega)]
    rw [add_mul, mul_assoc, ← zpow_add₀ (by norm_num : (10:ℚ) ≠ 0)]
    ring_nf

theorem Dec.val_neg (a : Dec) : a.neg.val = -a.val := by
  rw [Dec.val_eq_zpow, Dec.val_eq_zpow]
  push_cast [Dec.neg]
  ring

theorem Dec.val_sub (a b : Dec) : (a.sub b).val = a.val - b.val := by
  rw [Dec.sub, Dec.val_add, Dec.val_neg, sub_eq_add_neg]

theorem Dec.val_mul (a b : Dec) : (a.mul b).val = a.val * b.val := by
  rw [Dec.val_eq_zpow, Dec.val_eq_zpow, Dec.val_eq_zpow]
  push_cast [Dec.mul]
  rw [zpow_add₀ (by norm_num : (10:ℚ) ≠ 0)]
  ring


theorem Dec.key_val (a : Dec) (emin : Int) (h : emin ≤ a.e) :
    ((a.m * 10 ^ (a.e - emin).toNat : Int) : ℚ) * (10 : ℚ) ^ emin = a.val := by
  rw [Dec.val_eq_zpow]
  push_cast
  rw [← zpow_natCast (10 : ℚ), Int.toNat_of_nonneg (by omega)]
  rw [mul_assoc, ← zpow_add₀ (by norm_num : (10:ℚ) ≠ 0)]
  ring_nf

theorem Dec.le_iff (a b : Dec) : Dec.le a b = true ↔ a.val ≤ b.val := by
  unfold Dec.le Dec.keys
  rw [decide_eq_true_eq]
  rw [← Dec.key_val a (min a.e b.e) (min_le_left _ _),
    ← Dec.key_val b (min a.e b.e) (min_le_right _ _)]
  constructor
  · intro h
    exact (mul_le_mul_right (ten_zpow_pos _)).mpr (by exact_mod_cast h)
  · intro h
    exact_mod_cast (mul_le_mul_right (ten_zpow_pos _)).mp h

theorem Dec.lt_iff (a b : Dec) : Dec.lt a b = true ↔ a.val < b.val := by
  unfold Dec.lt Dec.keys
  rw [decide_eq_true_eq]
  rw [← Dec.key_val a (min a.e b.e) (min_le_left _ _),
    ← Dec.key_val b (min a.e b.e) (min_le_right _ _)]
  constructor
  · intro h
    exact (mul_lt_mul_right (ten_zpow_pos _)).mpr (by exact_mod_cast h)
  · intro h
    exact_mod_cast (mul_lt_mul_right (ten_zpow_pos _)).mp h

theorem dec025_val : dec025.val = 25 / 100 := by
  rw [Dec.val_eq_zpow]; norm_num [dec025]

theorem dec098_val : dec098.val = 98 / 100 := by
  rw [Dec.val_eq_zpow]; norm_num [dec098]

theorem dec102_val : dec102.val = 102 / 100 := by
  rw [Dec.val_eq_zpow]; norm_num [dec102]

theorem compute_fib75_val (L H : Dec) :
    (compute_fib75 L H).val = L.val + 25 / 100 * (H.val - L.val) := by
  rw [compute_fib75, Dec.val_add, Dec.val_mul, Dec.val_sub, dec025_val]

/-- C2: for exact decimals with `0 ≤ low < high`, the derived level is
`low + 0.25 * (high - low)` and lies strictly between `low` and `high`;
the band bounds are exactly `0.98 * level` and `1.02 * level`, and the
level lies strictly inside the band.  All arithmetic is exact decimal
arithmetic (rational values), never binary floating point. -/

theorem band_computation_exact (L H : Dec)
    (h0 : 0 ≤ L.val) (hLH : L.val < H.val) :
    (compute_fib75 L H).val = L.val + 25 / 100 * (H.val - L.val) ∧
    L.val < (compute_fib75 L H).val ∧
    (compute_fib75 L H).val < H.val ∧
    (band_bounds (compute_fib75 L H)).1.val =
      98 / 100 * (compute_fib75 L H).val ∧
    (band_bounds (compute_fib75 L H)).2.val =
      102 / 100 * (compute_fib75 L H).val ∧
    (band_bounds (compute_fib75 L H)).1.val < (compute_fib75 L H).val ∧
    (compute_fib75 L H).val < (band_bounds (compute_fib75 L H)).2.val := by
  have hval := compute_fib75_val L H
  have hpos : 0 < (compute_fib75 L H).val := by rw [hval]; nlinarith
  refine ⟨hval, ?_, ?_, ?_, ?_, ?_, ?_⟩
  · rw [hval]; nlinarith
  · rw [hval]; nlinarith
  · rw [band_bounds, Dec.val_mul, dec098_val]; ring
  · rw [band_bounds, Dec.val_mul, dec102_val]; ring
  · rw [band_bounds, Dec.val_mul, dec098_val]; nlinarith
  · rw [band_bounds, Dec.val_mul, dec102_val]; nlinarith

/-- Witness for C2 at `low = 1`, `high = 2`. -/

theorem band_computation_exact_witness :
    0 ≤ (Dec.mk 1 0).val ∧ (Dec.mk 1 0).val < (Dec.mk 2 0).val ∧
    ((compute_fib75 ⟨1, 0⟩ ⟨2, 0⟩).val =
      (Dec.mk 1 0).val + 25 / 100 * ((Dec.mk 2 0).val - (Dec.mk 1 0).val) ∧
    (Dec.mk 1 0).val < (compute_fib75 ⟨1, 0⟩ ⟨2, 0⟩).val ∧
    (compute_fib75 ⟨1, 0⟩ ⟨2, 0⟩).val < (Dec.mk 2 0).val ∧
    (band_bounds (compute_fib75 ⟨1, 0⟩ ⟨2, 0⟩)).1.val =
      98 / 100 * (compute_fib75 ⟨1, 0⟩ ⟨2, 0⟩).val ∧
    (band_bounds (compute_fib75 ⟨1, 0⟩ ⟨2, 0⟩)).2.val =
      102 / 100 * (compute_fib75 ⟨1, 0⟩ ⟨2, 0⟩).val ∧
    (band_bounds (compute_fib75 ⟨1, 0⟩ ⟨2, 0⟩)).1.val <
      (compute_fib75 ⟨1, 0⟩ ⟨2, 0⟩).val ∧
    (compute_fib75 ⟨1, 0⟩ ⟨2, 0⟩).val <
      (band_bounds (compute_fib75 ⟨1, 0⟩ ⟨2, 0⟩)).2.val) := by
  have h0 : 0 ≤ (Dec.mk 1 0).val := by rw [Dec.val_eq_zpow]; norm_num
  have h1 : (Dec.mk 1 0).val < (Dec.mk 2 0).val := by
    rw [Dec.val_eq_zpow, Dec.val_eq_zpow]; norm_num
  exact ⟨h0, h1, band_computation_exact ⟨1, 0⟩ ⟨2, 0⟩ h0 h1⟩

/-! ### Decimal and integer string codecs

These model Python's `str` on `Decimal`/`int` and the constructors
`Decimal(string)` / `int(string)` as used by the persistence layer and
the `/add` command.  `str(Decimal)` follows the to-scientific-string
algorithm of the decimal specification (plain notation when the exponent
is non-positive and the adjusted exponent is at least `-6`, scientific
notation otherwise); `Decimal(string)` accepts the finite numeral forms
`[sign] (digits [. digits] | . digits) [E [sign] digits]`.  Strings are
`List Char`. -/

theorem digCh_val : ∀ d, d < 10 →
    digitVal (digCh d) = d ∧ isDigitCh (digCh d) = true := by decide

theorem isDigitCh_ne (c : Char) (h : isDigitCh c = true) :
    c ≠ '-' ∧ c ≠ '+' ∧ isDotCh c = false ∧ isExpCh c = false := by
  refine ⟨?_, ?_, ?_, ?_⟩
  · rintro rfl; exact absurd h (by decide)
  · rintro rfl; exact absurd h (by decide)
  · simp only [isDotCh, decide_eq_false_iff_not]
    rintro rfl; exact absurd h (by decide)
  · simp only [isExpCh, Bool.or_eq_false_iff, decide_eq_false_iff_not]
    exact ⟨by rintro rfl; exact absurd h (by decide),
      by rintro rfl; exact absurd h (by decide)⟩

theorem listIsEmpty_false (xs : Str) (h : xs ≠ []) : xs.isEmpty = false := by
  cases xs with
  | nil => exact absurd rfl h
  | cons c cs => rfl

theorem valFromDigits_aux (a : ℕ) (cs : Str) :
    cs.foldl (fun a c => 10 * a + digitVal c) a =
      a * 10 ^ cs.length + valFromDigits cs := by
  induction cs generalizing a with
  | nil => simp [valFromDigits]
  | cons c cs ih =>
    simp only [valFromDigits, List.foldl_cons, List.length_cons]
    rw [ih (10 * a + digitVal c), ih (10 * 0 + digitVal c)]
    ring

theorem valFromDigits_append (xs ys : Str) :
    valFromDigits (xs ++ ys) =
      valFromDigits xs * 10 ^ ys.length + valFromDigits ys := by
  unfold valFromDigits
  rw [List.foldl_append]
  exact valFromDigits_aux _ ys

theorem valFromDigits_zeros (k : ℕ) :
    valFromDigits (List.replicate k '0') = 0 := by
  induction k with
  | zero => rfl
  | succ k ih =>
    have h0 : 10 * 0 + digitVal '0' = 0 := by decide
    simp only [List.replicate_succ, valFromDigits, List.foldl_cons] at *
    rw [h0]
    exact ih

theorem valFromDigits_leadZeros (k : ℕ) (cs : Str) :
    valFromDigits (List.replicate k '0' ++ cs) = valFromDigits cs := by
  rw [valFromDigits_append, valFromDigits_zeros]
  simp

theorem valFromDigits_mapBE (ds : List ℕ) (h : ∀ d ∈ ds, d < 10) :
    valFromDigits ((ds.map digCh).reverse) = Nat.ofDigits 10 ds := by
  induction ds with
  | nil => rfl
  | cons d ds ih =>
    rw [List.map_cons, List.reverse_cons, valFromDigits_append]
    have hd : d < 10 := h d (List.mem_cons_self _ _)
    have h1 : valFromDigits [digCh d] = d := by
      simp [valFromDigits, (digCh_val d hd).1]
    rw [Nat.ofDigits_cons, ih (fun x hx => h x (List.mem_cons_of_mem _ hx)), h1]
    simp only [List.length_singleton, pow_one]
    ring

theorem natToDigitsBE_val (n : ℕ) : valFromDigits (natToDigitsBE n) = n := by
  unfold natToDigitsBE
  split
  · subst n; decide
  · rw [valFromDigits_mapBE _ (fun d hd => Nat.digits_lt_base (by norm_num) hd),
      Nat.ofDigits_digits]

theorem natToDigitsBE_digits (n : ℕ) :
    ∀ c ∈ natToDigitsBE n, isDigitCh c = true := by
  unfold natToDigitsBE
  split
  · intro c hc
    simp only [List.mem_singleton] at hc
    subst hc; decide
  · intro c hc
    rw [List.mem_reverse, List.mem_map] at hc
    obtain ⟨d, hd, rfl⟩ := hc
    exact (digCh_val d (Nat.digits_lt_base (by norm_num) hd)).2

theorem natToDigitsBE_ne_nil (n : ℕ) : natToDigitsBE n ≠ [] := by
  unfold natToDigitsBE
  split
  · simp
  · intro h
    rw [List.reverse_eq_nil_iff, List.map_eq_nil_iff] at h
    exact absurd h (Nat.digits_ne_nil_iff_ne_zero.mpr (by assumption))

theorem breakAt_none (p : Char → Bool) (xs : Str)
    (h : ∀ c ∈ xs, p c = false) : breakAt p xs = (xs, none) := by
  induction xs with
  | nil => rfl
  | cons c cs ih =>
    have hc := h c (List.mem_cons_self _ _)
    simp [breakAt, hc, ih (fun x hx => h x (List.mem_cons_of_mem _ hx))]

theorem breakAt_split (p : Char → Bool) (xs : Str) (y : Char) (ys : Str)
    (h : ∀ c ∈ xs, p c = false) (hy : p y = true) :
    breakAt p (xs ++ y :: ys) = (xs, some ys) := by
  induction xs with
  | nil => simp [breakAt, hy]
  | cons c cs ih =>
    have hc := h c (List.mem_cons_self _ _)
    simp [breakAt, hc, ih (fun x hx => h x (List.mem_cons_of_mem _ hx))]

theorem parseSign_digit (c : Char) (r : Str) (h : isDigitCh c = true) :
    parseSign (c :: r) = (false, c :: r) := by
  obtain ⟨h1, h2, -, -⟩ := isDigitCh_ne c h
  simp [parseSign, h1, h2]

theorem parseUnsigned_digits (cs : Str) (hne : cs ≠ [])
    (h : ∀ c ∈ cs, isDigitCh c = true) :
    parseUnsigned cs = some (valFromDigits cs) := by
  simp [parseUnsigned, listIsEmpty_false cs hne, List.all_eq_true.mpr h]

theorem parseIntStr_signed (z : Int) :
    parseIntStr (signedIntToString z) = some z := by
  have hd := natToDigitsBE_digits z.natAbs
  have hne := natToDigitsBE_ne_nil z.natAbs
  have hv := natToDigitsBE_val z.natAbs
  unfold signedIntToString parseIntStr
  split_ifs with hz
  · rw [show parseSign ('-' :: natToDigitsBE z.natAbs) =
        (true, natToDigitsBE z.natAbs) from by simp [parseSign]]
    rw [parseUnsigned_digits _ hne hd, hv]
    simp only [intOfSign, if_pos, Option.some.injEq]
    omega
  · rw [show parseSign ('+' :: natToDigitsBE z.natAbs) =
        (false, natToDigitsBE z.natAbs) from by simp [parseSign]]
    rw [parseUnsigned_digits _ hne hd, hv]
    simp only [intOfSign, if_neg, Option.some.injEq, Bool.false_eq_true,
      not_false_eq_true]
    omega

theorem parseIntStr_plain (z : Int) :
    parseIntStr (intToString z) = some z := by
  have hd := natToDigitsBE_digits z.natAbs
  have hne := natToDigitsBE_ne_nil z.natAbs
  have hv := natToDigitsBE_val z.natAbs
  unfold intToString parseIntStr
  split_ifs with hz
  · rw [show parseSign ('-' :: natToDigitsBE z.natAbs) =
        (true, natToDigitsBE z.natAbs) from by simp [parseSign]]
    rw [parseUnsigned_digits _ hne hd, hv]
    simp only [intOfSign, if_pos, Option.some.injEq]
    omega
  · cases hcs : natToDigitsBE z.natAbs with
    | nil => exact absurd hcs hne
    | cons c r =>
      rw [parseSign_digit c r (hd c (by rw [hcs]; exact List.mem_cons_self _ _))]
      rw [← hcs, parseUnsigned_digits _ hne hd, hv]
      simp only [intOfSign, if_neg, Option.some.injEq, Bool.false_eq_true,
        not_false_eq_true]
      omega

theorem decCore_head (digits : Str) (e : Int) (hne : digits ≠ [])
    (hd : ∀ c ∈ digits, isDigitCh c = true) :
    ∃ c r, decCore digits e = c :: r ∧ isDigitCh c = true := by
  cases digits with
  | nil => exact absurd rfl hne
  | cons c0 r0 =>
    have hc0 : isDigitCh c0 = true := hd c0 (List.mem_cons_self _ _)
    unfold decCore
    split_ifs with h1 h2 h3 h4
    · exact ⟨'0', _, rfl, by decide⟩
    · exact ⟨c0, _, rfl, hc0⟩
    · obtain ⟨k, hk⟩ : ∃ k, (e + ((c0 :: r0).length : Int)).toNat = k + 1 :=
        ⟨(e + ((c0 :: r0).length : Int)).toNat - 1, by omega⟩
      rw [hk]
      exact ⟨c0, _, rfl, hc0⟩
    · exact ⟨c0, _, rfl, hc0⟩
    · exact ⟨c0, _, rfl, hc0⟩

theorem parseDecAfterSign_core (neg : Bool) (digits : Str) (e : Int)
    (hne : digits ≠ []) (hd : ∀ c ∈ digits, isDigitCh c = true) :
    parseDecAfterSign neg (decCore digits e) =
      some ⟨intOfSign neg (valFromDigits digits), e⟩ := by
  have hnotdot : ∀ c ∈ digits, isDotCh c = false :=
    fun c hc => (isDigitCh_ne c (hd c hc)).2.2.1
  have hnotexp : ∀ c ∈ digits, isExpCh c = false :=
    fun c hc => (isDigitCh_ne c (hd c hc)).2.2.2
  have hlen : 0 < digits.length := List.length_pos.mpr hne
  have hall : digits.all isDigitCh = true := List.all_eq_true.mpr hd
  unfold decCore
  split_ifs with h1 h2 h3 h4
  · -- plain notation "0.00…digits"
    have hE := breakAt_none isExpCh
      ('0' :: '.' :: (List.replicate (-(e + (digits.length : Int))).toNat '0' ++ digits))
      (by
        intro c hc
        simp only [List.mem_cons, List.mem_append, List.mem_replicate] at hc
        rcases hc with rfl | rfl | ⟨-, rfl⟩ | hc
        · decide
        · decide
        · decide
        · exact hnotexp c hc)
    have hD : breakAt isDotCh
        ('0' :: '.' :: (List.replicate (-(e + (digits.length : Int))).toNat '0' ++ digits)) =
        (['0'], some (List.replicate (-(e + (digits.length : Int))).toNat '0' ++ digits)) :=
      breakAt_split isDotCh ['0'] '.' _
        (by intro c hc; simp only [List.mem_singleton] at hc; subst hc; decide)
        (by decide)
    have hallfp : (List.replicate (-(e + (digits.length : Int))).toNat '0' ++ digits).all
        isDigitCh = true := by
      rw [List.all_append, hall,
        List.all_eq_true.mpr
          (fun c hc => by rw [List.eq_of_mem_replicate hc]; decide)]
      rfl
    have hval : valFromDigits
        ('0' :: (List.replicate (-(e + (digits.length : Int))).toNat '0' ++ digits)) =
        valFromDigits digits := by
      have hcons : ('0' :: (List.replicate (-(e + (digits.length : Int))).toNat '0' ++ digits) : Str) =
          List.replicate ((-(e + (digits.length : Int))).toNat + 1) '0' ++ digits := by
        rw [List.replicate_succ, List.cons_append]
      rw [hcons, valFromDigits_leadZeros]
    simp only [parseDecAfterSign, hE, hD, Option.getD_some]
    rw [if_neg (by simp), if_pos (by rw [hallfp]; decide)]
    simp only [Option.some.injEq, Dec.mk.injEq]
    constructor
    · rw [show (['0'] ++ (List.replicate (-(e + (digits.length : Int))).toNat '0' ++ digits) : Str) =
        '0' :: (List.replicate (-(e + (digits.length : Int))).toNat '0' ++ digits) from rfl, hval]
    · simp only [List.length_append, List.length_replicate]
      omega
  · -- plain notation, no fractional part (forces e = 0)
    have he0 : e = 0 := by omega
    have hpad : (e + (digits.length : Int) - digits.length).toNat = 0 := by omega
    rw [hpad]
    simp only [List.replicate_zero, List.append_nil]
    have hE := breakAt_none isExpCh digits hnotexp
    have hD := breakAt_none isDotCh digits hnotdot
    simp only [parseDecAfterSign, hE, hD, Option.getD_none]
    rw [if_neg (by simp [listIsEmpty_false digits hne]),
      if_pos (by rw [hall]; simp)]
    simp only [List.append_nil, List.length_nil, Option.some.injEq, Dec.mk.injEq]
    refine ⟨trivial, by omega⟩
  · -- plain notation with interior decimal point
    have htpos : 0 < (e + (digits.length : Int)).toNat := by omega
    have htle : (e + (digits.length : Int)).toNat ≤ digits.length := by omega
    have hE := breakAt_none isExpCh
      (digits.take (e + (digits.length : Int)).toNat ++
        '.' :: digits.drop (e + (digits.length : Int)).toNat)
      (by
        intro c hc
        simp only [List.mem_append, List.mem_cons] at hc
        rcases hc with hc | rfl | hc
        · exact hnotexp c (List.take_subset _ _ hc)
        · decide
        · exact hnotexp c (List.drop_subset _ _ hc))
    have hD : breakAt isDotCh
        (digits.take (e + (digits.length : Int)).toNat ++
          '.' :: digits.drop (e + (digits.length : Int)).toNat) =
        (digits.take (e + (digits.length : Int)).toNat,
          some (digits.drop (e + (digits.length : Int)).toNat)) :=
      breakAt_split isDotCh _ '.' _
        (fun c hc => hnotdot c (List.take_subset _ _ hc)) (by decide)
    have htakene : digits.take (e + (digits.length : Int)).toNat ≠ [] := by
      intro h
      have := congrArg List.length h
      simp only [List.length_take, List.length_nil] at this
      omega
    simp only [parseDecAfterSign, hE, hD, Option.getD_some]
    rw [if_neg (by simp [listIsEmpty_false _ htakene]),
      if_pos (by
        rw [List.all_eq_true.mpr (fun c hc => hd c (List.take_subset _ _ hc)),
          List.all_eq_true.mpr (fun c hc => hd c (List.drop_subset _ _ hc))]
        rfl)]
    simp only [List.take_append_drop, Option.some.injEq, Dec.mk.injEq]
    refine ⟨trivial, ?_⟩
    simp only [List.length_drop]
    omega
  · -- scientific notation, single-digit coefficient
    have hn1 : digits.length = 1 := by omega
    have hE : breakAt isExpCh
        (digits ++ 'E' :: signedIntToString (e + (digits.length : Int) - 1)) =
        (digits, some (signedIntToString (e + (digits.length : Int) - 1))) :=
      breakAt_split isExpCh digits 'E' _ hnotexp (by decide)
    have hD := breakAt_none isDotCh digits hnotdot
    simp only [parseDecAfterSign, hE, hD, parseIntStr_signed, Option.getD_none]
    rw [if_neg (by simp [listIsEmpty_false digits hne]),
      if_pos (by rw [hall]; simp)]
    simp only [List.append_nil, List.length_nil, Option.some.injEq, Dec.mk.injEq]
    refine ⟨trivial, by omega⟩
  · -- scientific notation with interior decimal point
    have hn2 : 2 ≤ digits.length := by omega
    have hE : breakAt isExpCh
        ((digits.take 1 ++ '.' :: digits.drop 1) ++
          'E' :: signedIntToString (e + (digits.length : Int) - 1)) =
        (digits.take 1 ++ '.' :: digits.drop 1,
          some (signedIntToString (e + (digits.length : Int) - 1))) :=
      breakAt_split isExpCh _ 'E' _
        (by
          intro c hc
          simp only [List.mem_append, List.mem_cons] at hc
          rcases hc with hc | rfl | hc
          · exact hnotexp c (List.take_subset _ _ hc)
          · decide
          · exact hnotexp c (List.drop_subset _ _ hc))
        (by decide)
    have hD : breakAt isDotCh (digits.take 1 ++ '.' :: digits.drop 1) =
        (digits.take 1, some (digits.drop 1)) :=
      breakAt_split isDotCh _ '.' _
        (fun c hc => hnotdot c (List.take_subset _ _ hc)) (by decide)
    have htakene : digits.take 1 ≠ [] := by
      intro h
      have := congrArg List.length h
      simp only [List.length_take, List.length_nil] at this
      omega
    simp only [parseDecAfterSign, hE, hD, parseIntStr_signed, Option.getD_some]
    rw [if_neg (by simp [listIsEmpty_false _ htakene]),
      if_pos (by
        rw [List.all_eq_true.mpr (fun c hc => hd c (List.take_subset _ _ hc)),
          List.all_eq_true.mpr (fun c hc => hd c (List.drop_subset _ _ hc))]
        rfl)]
    simp only [List.take_append_drop, Option.some.injEq, Dec.mk.injEq]
    refine ⟨trivial, ?_⟩
    simp only [List.length_drop]
    omega

/-- Lossless round trip of the decimal string codec: parsing the printed
form of any finite decimal restores it exactly. -/

theorem parseDec_decToString (d : Dec) : parseDec (decToString d) = some d := by
  have hd := natToDigitsBE_digits d.m.natAbs
  have hne := natToDigitsBE_ne_nil d.m.natAbs
  have hval := natToDigitsBE_val d.m.natAbs
  unfold decToString parseDec
  split_ifs with hm
  · rw [show ((['-'] ++ decCore (natToDigitsBE d.m.natAbs) d.e : Str)) =
      '-' :: decCore (natToDigitsBE d.m.natAbs) d.e from rfl]
    rw [show parseSign ('-' :: decCore (natToDigitsBE d.m.natAbs) d.e) =
      (true, decCore (natToDigitsBE d.m.natAbs) d.e) from by simp [parseSign]]
    rw [parseDecAfterSign_core true _ d.e hne hd, hval]
    simp only [intOfSign, if_pos, Option.some.injEq]
    have : (-(d.m.natAbs : Int)) = d.m := by omega
    rw [this]
  · obtain ⟨c, r, hcr, hc⟩ := decCore_head (natToDigitsBE d.m.natAbs) d.e hne hd
    rw [List.nil_append, hcr, parseSign_digit c r hc, ← hcr,
      parseDecAfterSign_core false _ d.e hne hd, hval]
    simp only [intOfSign, if_neg, Option.some.injEq, Bool.false_eq_true,
      not_false_eq_true]
    have : ((d.m.natAbs : Int)) = d.m := by omega
    rw [this]


/-! ### JSON documents and the persistence layer

`_state_to_jsonable` / `_jsonable_to_state` / `load_state` from the
source.  JSON values are a tree; JSON numbers appearing in this program
are integers (`alerts_sent`).  Python dicts are embedded as key-unique
association lists in insertion order, which is exactly the shape the
encoder emits.  The entry record is fixed to the field set `add_cmd`
creates; a loaded entry whose decimal field is absent or non-string
takes the same `0` default the code gives an unparseable string (Python
would carry the malformed field along unusably). -/

theorem jsonable_to_entry_roundtrip (st : EntrySt) :
    jsonable_to_entry (entry_to_jsonable st) = st := by
  obtain ⟨name, L, H, fib75, ⟨b1, b2⟩, status, ft, al, pair, lp⟩ := st
  cases lp <;>
    simp +decide [jsonable_to_entry, entry_to_jsonable, decodeDecField,
      decodeBand, decodeBandElem, jLookup, parseDec_decToString,
      kName, kL, kH, kFib75, kBand, kStatus, kFirstTick, kAlertsSent,
      kPair, kLastPrice]

theorem decodeContracts_roundtrip (m : List (Str × EntrySt)) :
    decodeContracts (m.map (fun ke => (ke.1, Json.obj (entry_to_jsonable ke.2)))) =
      some m := by
  induction m with
  | nil => rfl
  | cons ke rest ih =>
    obtain ⟨k, e⟩ := ke
    simp [decodeContracts, ih, jsonable_to_entry_roundtrip]

theorem jsonable_to_state_roundtrip (s : State) :
    jsonable_to_state (s.map (fun cm => (intToString cm.1,
      Json.obj (cm.2.map (fun ke => (ke.1, Json.obj (entry_to_jsonable ke.2))))))) =
      some s := by
  induction s with
  | nil => rfl
  | cons cm rest ih =>
    obtain ⟨c, m⟩ := cm
    simp [jsonable_to_state, parseIntStr_plain, decodeContracts_roundtrip, ih]

theorem jsonable_to_state_top_roundtrip (s : State) :
    jsonable_to_state_top (state_to_jsonable s) = some s := by
  cases s with
  | nil => rfl
  | cons cm rest =>
    have h := jsonable_to_state_roundtrip (cm :: rest)
    simp only [state_to_jsonable, List.map_cons] at h ⊢
    rw [jsonable_to_state_top, if_neg (by simp [jFalsy])]
    exact h

/-- C5: deserializing the serialized form of any watch collection
restores it exactly, every decimal field round-tripping losslessly
through its string encoding. -/

theorem save_load_roundtrip (s prev : State) :
    load_state (some (state_to_jsonable s)) prev = s := by
  simp [load_state, jsonable_to_state_top_roundtrip]

/-- C8: tolerant deserialization: missing `status`, `first_tick`,
`alerts_sent` and `pair` fields take the defaults outside/true/0/empty;
an unparseable decimal string defaults to 0 (and an unparseable
`last_price` to absent); an owner key that is not an integer skips only
that owner's block; and an absent snapshot file leaves the (initially
empty) collection unchanged. -/

theorem load_tolerant_defaults :
    (∀ fields : List (Str × Json),
      jLookup fields kStatus = none →
      jLookup fields kFirstTick = none →
      jLookup fields kAlertsSent = none →
      jLookup fields kPair = none →
      (jsonable_to_entry fields).status = kOutside ∧
      (jsonable_to_entry fields).first_tick = true ∧
      (jsonable_to_entry fields).alerts_sent = 0 ∧
      (jsonable_to_entry fields).pair = Json.obj []) ∧
    (∀ (fields : List (Str × Json)) (s : Str),
      jLookup fields kL = some (Json.str s) → parseDec s = none →
      (jsonable_to_entry fields).L = ⟨0, 0⟩) ∧
    (∀ (fields : List (Str × Json)) (s : Str),
      jLookup fields kLastPrice = some (Json.str s) → parseDec s = none →
      (jsonable_to_entry fields).last_price = none) ∧
    (∀ (k : Str) (v : Json) (rest : List (Str × Json)),
      parseIntStr k = none →
      jsonable_to_state ((k, v) :: rest) = jsonable_to_state rest) ∧
    (∀ prev : State, load_state none prev = prev) ∧
    load_state none [] = [] := by
  refine ⟨?_, ?_, ?_, ?_, fun prev => rfl, rfl⟩
  · intro fields h1 h2 h3 h4
    simp [jsonable_to_entry, h1, h2, h3, h4]
  · intro fields s h1 h2
    simp [jsonable_to_entry, decodeDecField, h1, h2]
  · intro fields s h1 h2
    simp [jsonable_to_entry, h1, h2]
  · intro k v rest h
    simp [jsonable_to_state, h]

/-- Witness for C8 on concrete malformed snapshots. -/

theorem load_tolerant_defaults_witness :
    ((jsonable_to_entry [(kL, Json.str ['z'])]).status = kOutside ∧
      (jsonable_to_entry [(kL, Json.str ['z'])]).first_tick = true ∧
      (jsonable_to_entry [(kL, Json.str ['z'])]).alerts_sent = 0 ∧
      (jsonable_to_entry [(kL, Json.str ['z'])]).pair = Json.obj []) ∧
    (jsonable_to_entry [(kL, Json.str ['z'])]).L = ⟨0, 0⟩ ∧
    (jsonable_to_entry [(kLastPrice, Json.str ['z'])]).last_price = none ∧
    jsonable_to_state [(['x'], Json.num 3)] = jsonable_to_state [] ∧
    load_state none [(7, [])] = [(7, [])] := by
  obtain ⟨h1, h2, h3, h4, h5, -⟩ := load_tolerant_defaults
  exact ⟨h1 [(kL, Json.str ['z'])] rfl rfl rfl rfl,
    h2 [(kL, Json.str ['z'])] ['z'] rfl rfl,
    h3 [(kLastPrice, Json.str ['z'])] ['z'] rfl rfl,
    h4 ['x'] (Json.num 3) [] rfl,
    h5 [(7, [])]⟩



/-! ### The price source, the per-entry step and the poll cycle

`fetch_top_pair` is an external HTTP call; its (already filtered and
ranked) result enters the model as an `Option Pair` oracle per
`(chat, contract)`.  Telegram delivery success enters as a boolean
oracle; the source wraps `send_message` in `try/except`, so delivery
outcome never alters control flow. -/

theorem ne_nil_of_not_isEmpty (xs : Str) (h : ¬ xs.isEmpty = true) : xs ≠ [] := by
  cases xs with
  | nil => exact absurd rfl h
  | cons c cs => exact List.cons_ne_nil c cs

theorem tokenSym_base_ne (p : Pair) : tokenSym p.baseToken kTokenDflt ≠ [] := by
  unfold tokenSym pyOr
  split_ifs with h1 h2
  · decide
  · exact ne_nil_of_not_isEmpty _ h2
  · exact ne_nil_of_not_isEmpty _ h1

theorem autoName_ne (p : Pair) : autoName p ≠ [] := by
  unfold autoName
  split_ifs with h1
  · cases h : tokenSym p.baseToken kTokenDflt with
    | nil => exact absurd h (tokenSym_base_ne p)
    | cons c cs => simp
  · exact tokenSym_base_ne p

theorem pollEntry_band (st : EntrySt) (f : Option Pair) (dv : Bool) :
    (pollEntry st f dv).st.band = st.band := by
  by_cases hge : st.alerts_sent ≥ 2
  · simp [pollEntry, hge]
  · rcases f with _ | p
    · simp [pollEntry, hge, noStep]
    · rcases hq : get_price_usd_from_pair p with _ | price
      · simp [pollEntry, hge, hq, noStep]
      · by_cases hn : st.name.isEmpty = true <;>
          simp only [pollEntry, if_neg hge, hq, hn, if_true, if_false,
            Bool.false_eq_true] <;>
          split <;> rfl

theorem pollEntry_deliver_indep (st : EntrySt) (f : Option Pair) (dv dv' : Bool) :
    (pollEntry st f dv).st = (pollEntry st f dv').st ∧
    (pollEntry st f dv).remove = (pollEntry st f dv').remove ∧
    (pollEntry st f dv).changed = (pollEntry st f dv').changed ∧
    (pollEntry st f dv).alerted = (pollEntry st f dv').alerted := by
  by_cases hge : st.alerts_sent ≥ 2
  · simp [pollEntry, hge]
  · rcases f with _ | p
    · simp [pollEntry, hge, noStep]
    · rcases hq : get_price_usd_from_pair p with _ | price
      · simp [pollEntry, hge, hq, noStep]
      · by_cases hn : st.name.isEmpty = true <;>
          simp only [pollEntry, if_neg hge, hq, hn, if_true, if_false,
            Bool.false_eq_true] <;>
          split <;> exact ⟨rfl, rfl, rfl, rfl⟩



/-- A fetch outcome `poll_job` treats as a failure for the entry: no
pair at all, or a pair without a usable price. -/

theorem list_filterMap_congr {α β : Type} (l : List α) (f g : α → Option β)
    (h : ∀ a ∈ l, f a = g a) : l.filterMap f = l.filterMap g := by
  induction l with
  | nil => rfl
  | cons a l ih =>
    rw [List.filterMap_cons, List.filterMap_cons, h a (List.mem_cons_self _ _),
      ih (fun x hx => h x (List.mem_cons_of_mem _ hx))]

theorem list_any_congr {α : Type} (l : List α) (p q : α → Bool)
    (h : ∀ a ∈ l, p a = q a) : l.any p = l.any q := by
  induction l with
  | nil => rfl
  | cons a l ih =>
    rw [List.any_cons, List.any_cons, h a (List.mem_cons_self _ _),
      ih (fun x hx => h x (List.mem_cons_of_mem _ hx))]

theorem pollEntry_fail (st : EntrySt) (f : Option Pair) (dv : Bool)
    (hA : ¬ st.alerts_sent ≥ 2) (hf : fetchFails f) :
    pollEntry st f dv = noStep st := by
  rcases hf with rfl | ⟨p, rfl, hp⟩
  · simp [pollEntry, hA]
  · simp [pollEntry, hA, hp]

theorem pollEntry_alerts_mono (st : EntrySt) (f : Option Pair) (dv : Bool) :
    st.alerts_sent ≤ (pollEntry st f dv).st.alerts_sent := by
  by_cases hge : st.alerts_sent ≥ 2
  · simp [pollEntry, hge]
  · rcases f with _ | p
    · simp [pollEntry, hge, noStep]
    · rcases hq : get_price_usd_from_pair p with _ | price
      · simp [pollEntry, hge, hq, noStep]
      · by_cases hn : st.name.isEmpty = true <;>
          simp only [pollEntry, if_neg hge, hq, hn, if_true, if_false,
            Bool.false_eq_true] <;>
          split <;> dsimp only [] <;> omega

theorem pollEntry_survivor (st : EntrySt) (f : Option Pair) (dv : Bool)
    (h : (pollEntry st f dv).remove = false) :
    (pollEntry st f dv).st.alerts_sent ≤ 1 := by
  by_cases hge : st.alerts_sent ≥ 2
  · simp [pollEntry, hge] at h
  · rcases f with _ | p
    · simp [pollEntry, hge, noStep]; omega
    · rcases hq : get_price_usd_from_pair p with _ | price
      · simp [pollEntry, hge, hq, noStep]; omega
      · by_cases hn : st.name.isEmpty = true <;>
          simp only [pollEntry, if_neg hge, hq, hn, if_true, if_false,
            Bool.false_eq_true] at h ⊢ <;>
          revert h <;> split <;> dsimp only [] <;> intro h <;>
          first
          | omega
          | (simp only [decide_eq_false_iff_not] at h; omega)

theorem pollEntry_range (st : EntrySt) (f : Option Pair) (dv : Bool)
    (h0 : 0 ≤ st.alerts_sent) (h2 : st.alerts_sent ≤ 2) :
    0 ≤ (pollEntry st f dv).st.alerts_sent ∧
      (pollEntry st f dv).st.alerts_sent ≤ 2 := by
  by_cases hge : st.alerts_sent ≥ 2
  · simp [pollEntry, hge]; omega
  · rcases f with _ | p
    · simp [pollEntry, hge, noStep]; omega
    · rcases hq : get_price_usd_from_pair p with _ | price
      · simp [pollEntry, hge, hq, noStep]; omega
      · by_cases hn : st.name.isEmpty = true <;>
          simp only [pollEntry, if_neg hge, hq, hn, if_true, if_false,
            Bool.false_eq_true] <;>
          split <;> simp <;> omega

theorem list_map_congr {α β : Type} (l : List α) (f g : α → β)
    (h : ∀ a ∈ l, f a = g a) : l.map f = l.map g := by
  induction l with
  | nil => rfl
  | cons a l ih =>
    rw [List.map_cons, List.map_cons, h a (List.mem_cons_self _ _),
      ih (fun x hx => h x (List.mem_cons_of_mem _ hx))]

theorem list_any_map {α β : Type} (l : List α) (f : α → β) (p : β → Bool) :
    (l.map f).any p = l.any (fun a => p (f a)) := by
  induction l with
  | nil => rfl
  | cons a l ih => rw [List.map_cons, List.any_cons, List.any_cons, ih]

theorem pollContracts_deliver_indep (chat : Int) (m : List (Str × EntrySt))
    (o : Oracle) (dv dv' : Deliver) :
    (pollContracts chat m o dv).1 = (pollContracts chat m o dv').1 ∧
    (pollContracts chat m o dv).2 = (pollContracts chat m o dv').2 := by
  simp only [pollContracts]
  rw [List.filterMap_map, List.filterMap_map, list_any_map, list_any_map]
  constructor
  · apply list_filterMap_congr
    intro ke _
    obtain ⟨hst, hrm, -, -⟩ :=
      pollEntry_deliver_indep ke.2 (o chat ke.1) (dv chat ke.1) (dv' chat ke.1)
    simp only [Function.comp_apply, hst, hrm]
  · apply list_any_congr
    intro ke _
    obtain ⟨-, -, hch, -⟩ :=
      pollEntry_deliver_indep ke.2 (o chat ke.1) (dv chat ke.1) (dv' chat ke.1)
    simp only [Function.comp_apply, hch]

/-- C9: delivery failure does not roll back the alert transition.  The
whole cycle result (the new collection and the `changed` flag), and per
entry the new state, the removal (retirement) decision, the `changed`
flag and the alert emission, are identical whatever the delivery
outcomes; only the delivery success bit differs. -/

theorem delivery_failure_no_rollback (s : State) (o : Oracle) (dv dv' : Deliver) :
    ((poll_job s o dv).1 = (poll_job s o dv').1 ∧
      (poll_job s o dv).2 = (poll_job s o dv').2) ∧
    (∀ (st : EntrySt) (f : Option Pair),
      (pollEntry st f false).st = (pollEntry st f true).st ∧
      (pollEntry st f false).remove = (pollEntry st f true).remove ∧
      (pollEntry st f false).changed = (pollEntry st f true).changed ∧
      (pollEntry st f false).alerted = (pollEntry st f true).alerted) := by
  constructor
  · constructor
    · unfold poll_job
      dsimp only []
      apply list_map_congr
      intro cm _
      rw [(pollContracts_deliver_indep cm.1 cm.2 o dv dv').1]
    · unfold poll_job
      dsimp only []
      apply list_any_congr
      intro cm _
      rw [(pollContracts_deliver_indep cm.1 cm.2 o dv dv').2]
  · intro st f
    exact pollEntry_deliver_indep st f false true

theorem pollEntry_changed_obs (st : EntrySt) (f : Option Pair) (dv : Bool) :
    (pollEntry st f dv).changed = obsChanged st (pollEntry st f dv) := by
  by_cases hge : st.alerts_sent ≥ 2
  · simp [pollEntry, hge, obsChanged]
  · rcases f with _ | p
    · simp [pollEntry, hge, noStep, obsChanged]
    · rcases hq : get_price_usd_from_pair p with _ | price
      · simp [pollEntry, hge, hq, noStep, obsChanged]
      · have hne1 : st.alerts_sent + 1 ≠ st.alerts_sent := by omega
        by_cases hn : st.name.isEmpty = true
        · have hnil : st.name = [] := by
            cases h : st.name with
            | nil => rfl
            | cons c cs => rw [h] at hn; exact absurd hn (by simp)
          have hauto := autoName_ne p
          simp only [pollEntry, if_neg hge, hq, hn, if_true]
          split
          · simp [obsChanged, hne1]
          · simp [obsChanged, hnil, hauto]
        · have hnn : st.name ≠ [] := ne_nil_of_not_isEmpty st.name hn
          simp only [pollEntry, if_neg hge, hq, if_neg hn]
          split
          · simp [obsChanged, hne1]
          · simp [obsChanged, hnn]

theorem poll_changed_eq (s : State) (o : Oracle) (dv : Deliver) :
    (poll_job s o dv).2 = s.any (fun cm => cm.2.any (fun ke =>
      obsChanged ke.2 (pollEntry ke.2 (o cm.1 ke.1) (dv cm.1 ke.1)))) := by
  unfold poll_job
  dsimp only []
  apply list_any_congr
  intro cm _
  simp only [pollContracts]
  rw [list_any_map]
  apply list_any_congr
  intro ke _
  exact pollEntry_changed_obs ke.2 (o cm.1 ke.1) (dv cm.1 ke.1)

/-- C6 (amended): the cycle persists at most once, and it persists
exactly when some entry was removed or had its status, its display
name or its alert counter change during the cycle; a mutation that
only updates `last_price` or the cached `pair` metadata does not set
the change flag and triggers no save. -/

theorem save_iff_flagged_change (s : State) (o : Oracle) (dv : Deliver) :
    save_calls s o dv =
      (if s.any (fun cm => cm.2.any (fun ke =>
          obsChanged ke.2 (pollEntry ke.2 (o cm.1 ke.1) (dv cm.1 ke.1)))) = true
        then 1 else 0) ∧
    save_calls s o dv ≤ 1 := by
  constructor
  · unfold save_calls
    rw [poll_changed_eq]
  · unfold save_calls
    split <;> omega

/-- C6 counterexample: a cycle that observes a price and mutates the
entry's `last_price` (1.3 to 1.26, no status flip, no alert) performs
no save at all, refuting "save is invoked if any field mutated,
including lastPrice and lastObservedPair". -/
theorem last_price_change_no_save :
    save_calls stateC6 oracleC6 dvTrue = 0 ∧
    (lookupEntry (poll_job stateC6 oracleC6 dvTrue).1 1 ['c']).map EntrySt.last_price =
      some (some ⟨126, -2⟩) ∧
    entryC6.last_price = some (⟨13, -1⟩ : Dec) ∧
    (⟨126, -2⟩ : Dec) ≠ (⟨13, -1⟩ : Dec) := by
  refine ⟨rfl, rfl, rfl, by decide⟩

/-- C4: `alertsSent` never decreases in a cycle step, stays within
`[0, 2]` when it starts there, a surviving (non-retired) entry always
leaves the step with at most one alert sent, and consequently every
entry present in the collection after a completed cycle has
`alertsSent ≤ 1` — no entry with `alertsSent ≥ 2` survives. -/
theorem alerts_sent_monotone_bounded :
    (∀ (st : EntrySt) (f : Option Pair) (dv : Bool),
      st.alerts_sent ≤ (pollEntry st f dv).st.alerts_sent) ∧
    (∀ (st : EntrySt) (f : Option Pair) (dv : Bool),
      0 ≤ st.alerts_sent → st.alerts_sent ≤ 2 →
      0 ≤ (pollEntry st f dv).st.alerts_sent ∧
        (pollEntry st f dv).st.alerts_sent ≤ 2) ∧
    (∀ (st : EntrySt) (f : Option Pair) (dv : Bool),
      (pollEntry st f dv).remove = false →
      (pollEntry st f dv).st.alerts_sent ≤ 1) ∧
    (∀ (s : State) (o : Oracle) (dv : Deliver),
      ∀ cm ∈ (poll_job s o dv).1, ∀ ke ∈ cm.2, ke.2.alerts_sent ≤ 1) := by
  refine ⟨pollEntry_alerts_mono, pollEntry_range, pollEntry_survivor, ?_⟩
  intro s o dv cm hcm ke hke
  unfold poll_job at hcm
  dsimp only [] at hcm
  rw [List.mem_map] at hcm
  obtain ⟨cm0, -, rfl⟩ := hcm
  simp only [pollContracts] at hke
  rw [List.mem_filterMap] at hke
  obtain ⟨a, ha, hfa⟩ := hke
  by_cases hr : a.2.remove = true
  · rw [if_pos hr] at hfa
    exact absurd hfa (by simp)
  · rw [if_neg hr] at hfa
    rw [List.mem_map] at ha
    obtain ⟨ke0, -, rfl⟩ := ha
    rw [← Option.some.inj hfa]
    exact pollEntry_survivor ke0.2 (o cm0.1 ke0.1) (dv cm0.1 ke0.1)
      (by simpa using hr)

/-- Witness for C4 at a fresh entry and a failing fetch; the final
bound is the cycle-level conclusion at the surviving entry. -/

theorem alerts_sent_monotone_bounded_witness :
    egEntry.alerts_sent ≤ (pollEntry egEntry none true).st.alerts_sent ∧
    (0 ≤ (pollEntry egEntry none true).st.alerts_sent ∧
      (pollEntry egEntry none true).st.alerts_sent ≤ 2) ∧
    (pollEntry egEntry none true).st.alerts_sent ≤ 1 ∧
    egEntry.alerts_sent ≤ 1 := by
  obtain ⟨hm, hr, hs, hl⟩ := alerts_sent_monotone_bounded
  refine ⟨hm egEntry none true, hr egEntry none true (by decide) (by decide),
    hs egEntry none true rfl, ?_⟩
  have h1 : (poll_job stateEg oracleNone dvTrue).1 = [(1, [(['c'], egEntry)])] := rfl
  exact hl stateEg oracleNone dvTrue (1, [(['c'], egEntry)])
    (by rw [h1]; exact List.mem_cons_self _ _) (['c'], egEntry)
    (List.mem_cons_self _ _)

theorem pollEntry_alert (st : EntrySt) (p : Pair) (q : Dec) (dv : Bool)
    (hA : ¬ st.alerts_sent ≥ 2) (hq : get_price_usd_from_pair p = some q)
    (hwb : within_band q st.band.1 st.band.2 = true)
    (htr : (decide (st.status = kOutside) || st.first_tick) = true) :
    (pollEntry st (some p) dv).alerted = true ∧
    (pollEntry st (some p) dv).st.status = kInside ∧
    (pollEntry st (some p) dv).st.first_tick = false ∧
    (pollEntry st (some p) dv).st.alerts_sent = st.alerts_sent + 1 := by
  have h2 : st.alerts_sent + 1 ≤ 2 := by omega
  by_cases hn : st.name.isEmpty = true <;>
    simp [pollEntry, if_neg hA, hq, hn, hwb, htr, h2]

theorem pollEntry_noalert (st : EntrySt) (p : Pair) (q : Dec) (dv : Bool)
    (hA : ¬ st.alerts_sent ≥ 2) (hq : get_price_usd_from_pair p = some q)
    (hwb : within_band q st.band.1 st.band.2 = true)
    (htr : (decide (st.status = kOutside) || st.first_tick) = false) :
    (pollEntry st (some p) dv).alerted = false ∧
    (pollEntry st (some p) dv).remove = false ∧
    (pollEntry st (some p) dv).st.status = kInside ∧
    (pollEntry st (some p) dv).st.first_tick = false := by
  have hft : st.first_tick = false := by
    cases hft : st.first_tick
    · rfl
    · rw [hft] at htr; simp at htr
  have hso : ¬ st.status = kOutside := by
    cases hd : decide (st.status = kOutside)
    · exact of_decide_eq_false hd
    · rw [hd] at htr; simp at htr
  by_cases hn : st.name.isEmpty = true <;>
    simp [pollEntry, if_neg hA, hq, hn, hwb, htr, hft, hso]

theorem pollEntry_quiet (st : EntrySt) (f : Option Pair) (dv : Bool)
    (hA : ¬ st.alerts_sent ≥ 2)
    (hs : st.status = kInside) (hf : st.first_tick = false)
    (hin : insideFetch st.band f) :
    (pollEntry st f dv).alerted = false ∧
    (pollEntry st f dv).remove = false ∧
    (pollEntry st f dv).st.status = kInside ∧
    (pollEntry st f dv).st.first_tick = false := by
  obtain ⟨p, q, rfl, hq, hwb⟩ := hin
  have htr : (decide (st.status = kOutside) || st.first_tick) = false := by
    rw [hs, hf]
    decide
  exact pollEntry_noalert st p q dv hA hq hwb htr

theorem runEntry_dead (fs : List (Option Pair)) (dv : Bool) :
    runEntry none fs dv = (none, 0) := by
  cases fs <;> rfl

theorem runEntry_quiet (fs : List (Option Pair)) : ∀ (st : EntrySt) (dv : Bool),
    st.status = kInside → st.first_tick = false →
    (∀ f ∈ fs, insideFetch st.band f) →
    (runEntry (some st) fs dv).2 = 0 := by
  induction fs with
  | nil => intro st dv _ _ _; rfl
  | cons f fs ih =>
    intro st dv hs hf hin
    by_cases hA : st.alerts_sent ≥ 2
    · have hpe : pollEntry st f dv = ⟨st, true, true, false, false⟩ := by
        simp [pollEntry, hA]
      simp [runEntry, hpe, runEntry_dead]
    · obtain ⟨ha, hr, hs2, hf2⟩ := pollEntry_quiet st f dv hA hs hf
        (hin f (List.mem_cons_self _ _))
      have hband := pollEntry_band st f dv
      have htail : ∀ g ∈ fs, insideFetch (pollEntry st f dv).st.band g := by
        rw [hband]
        exact fun g hg => hin g (List.mem_cons_of_mem _ hg)
      simp [runEntry, hr, ha, ih (pollEntry st f dv).st dv hs2 hf2 htail]

theorem runEntry_inside_le_one (fs : List (Option Pair)) : ∀ (st : EntrySt) (dv : Bool),
    (∀ f ∈ fs, insideFetch st.band f) →
    (runEntry (some st) fs dv).2 ≤ 1 := by
  induction fs with
  | nil => intro st dv _; simp [runEntry]
  | cons f fs ih =>
    intro st dv hin
    by_cases hA : st.alerts_sent ≥ 2
    · have hpe : pollEntry st f dv = ⟨st, true, true, false, false⟩ := by
        simp [pollEntry, hA]
      simp [runEntry, hpe, runEntry_dead]
    · obtain ⟨p, q, hfq, hq, hwb⟩ := hin f (List.mem_cons_self _ _)
      subst hfq
      have hband := pollEntry_band st (some p) dv
      have htail : ∀ g ∈ fs, insideFetch (pollEntry st (some p) dv).st.band g := by
        rw [hband]
        exact fun g hg => hin g (List.mem_cons_of_mem _ hg)
      cases htr : (decide (st.status = kOutside) || st.first_tick) with
      | false =>
        obtain ⟨ha, hr, hs2, hf2⟩ := pollEntry_noalert st p q dv hA hq hwb htr
        simp [runEntry, hr, ha,
          runEntry_quiet fs (pollEntry st (some p) dv).st dv hs2 hf2 htail]
      | true =>
        obtain ⟨ha, hs2, hf2, -⟩ := pollEntry_alert st p q dv hA hq hwb htr
        by_cases hr : (pollEntry st (some p) dv).remove = true
        · simp [runEntry, hr, ha, runEntry_dead]
        · simp [runEntry, hr, ha,
            runEntry_quiet fs (pollEntry st (some p) dv).st dv hs2 hf2 htail]

/-- C1: for an entry whose fetch yields a price (the retire guard not
taken), an alert is emitted iff the price lies inside the band and the
entry was Outside or on its first tick; that transition sets status to
Inside, clears firstTick and increments alertsSent by exactly one; an
entry whose very first observation lands inside the band alerts on that
evaluation; and across any run of consecutive cycles whose observations
all lie inside the band the entry receives at most one alert. -/

theorem poll_alert_transition_iff (st : EntrySt) (p : Pair) (price : Dec)
    (dv : Bool) (fs : List (Option Pair))
    (hA : st.alerts_sent < 2)
    (hq : get_price_usd_from_pair p = some price) :
    ((pollEntry st (some p) dv).alerted = true ↔
      (within_band price st.band.1 st.band.2 = true ∧
        (st.status = kOutside ∨ st.first_tick = true))) ∧
    ((pollEntry st (some p) dv).alerted = true →
      (pollEntry st (some p) dv).st.status = kInside ∧
      (pollEntry st (some p) dv).st.first_tick = false ∧
      (pollEntry st (some p) dv).st.alerts_sent = st.alerts_sent + 1) ∧
    (st.first_tick = true → within_band price st.band.1 st.band.2 = true →
      (pollEntry st (some p) dv).alerted = true) ∧
    ((∀ f ∈ fs, insideFetch st.band f) → (runEntry (some st) fs dv).2 ≤ 1) := by
  have hA2 : ¬ st.alerts_sent ≥ 2 := by omega
  have hwbcase : within_band price st.band.1 st.band.2 = false →
      (pollEntry st (some p) dv).alerted = false := by
    intro hwb
    by_cases hn : st.name.isEmpty = true <;>
      simp [pollEntry, if_neg hA2, hq, hn, hwb]
  refine ⟨⟨?_, ?_⟩, ?_, ?_, fun hin => runEntry_inside_le_one fs st dv hin⟩
  · intro ha
    cases hwb : within_band price st.band.1 st.band.2 with
    | false => rw [hwbcase hwb] at ha; exact absurd ha (by simp)
    | true =>
      cases htr : (decide (st.status = kOutside) || st.first_tick) with
      | false =>
        obtain ⟨ha2, -, -, -⟩ := pollEntry_noalert st p price dv hA2 hq hwb htr
        rw [ha2] at ha
        exact absurd ha (by simp)
      | true =>
        cases hd : decide (st.status = kOutside) with
        | true => exact ⟨rfl, Or.inl (of_decide_eq_true hd)⟩
        | false =>
          rw [hd] at htr
          simp at htr
          exact ⟨rfl, Or.inr htr⟩
  · rintro ⟨hwb, hst⟩
    have htr : (decide (st.status = kOutside) || st.first_tick) = true := by
      rcases hst with h | h
      · simp [h]
      · simp [h]
    exact (pollEntry_alert st p price dv hA2 hq hwb htr).1
  · intro ha
    cases hwb : within_band price st.band.1 st.band.2 with
    | false => rw [hwbcase hwb] at ha; exact absurd ha (by simp)
    | true =>
      cases htr : (decide (st.status = kOutside) || st.first_tick) with
      | false =>
        obtain ⟨ha2, -, -, -⟩ := pollEntry_noalert st p price dv hA2 hq hwb htr
        rw [ha2] at ha
        exact absurd ha (by simp)
      | true =>
        obtain ⟨-, h1, h2, h3⟩ := pollEntry_alert st p price dv hA2 hq hwb htr
        exact ⟨h1, h2, h3⟩
  · intro hf hwb
    exact (pollEntry_alert st p price dv hA2 hq hwb (by simp [hf])).1

/-- Witness for C1: a freshly added entry (Outside, first tick) whose
observed price 1.26 lies inside its band [1.225, 1.275]. -/

theorem poll_alert_transition_iff_witness :
    egEntry.alerts_sent < 2 ∧
    get_price_usd_from_pair pairC6 = some ⟨126, -2⟩ ∧
    (((pollEntry egEntry (some pairC6) true).alerted = true ↔
      (within_band ⟨126, -2⟩ egEntry.band.1 egEntry.band.2 = true ∧
        (egEntry.status = kOutside ∨ egEntry.first_tick = true))) ∧
    ((pollEntry egEntry (some pairC6) true).alerted = true →
      (pollEntry egEntry (some pairC6) true).st.status = kInside ∧
      (pollEntry egEntry (some pairC6) true).st.first_tick = false ∧
      (pollEntry egEntry (some pairC6) true).st.alerts_sent =
        egEntry.alerts_sent + 1) ∧
    (egEntry.first_tick = true →
      within_band ⟨126, -2⟩ egEntry.band.1 egEntry.band.2 = true →
      (pollEntry egEntry (some pairC6) true).alerted = true) ∧
    ((∀ f ∈ ([some pairC6] : List (Option Pair)), insideFetch egEntry.band f) →
      (runEntry (some egEntry) [some pairC6] true).2 ≤ 1)) :=
  ⟨by decide, rfl,
    poll_alert_transition_iff egEntry pairC6 ⟨126, -2⟩ true [some pairC6]
      (by decide) rfl⟩

theorem lookupChat_map_poll (s : State) (o : Oracle) (dv : Deliver) (c : Int) :
    lookupChat (s.map (fun cm => (cm.1, (pollContracts cm.1 cm.2 o dv).1))) c =
      (lookupChat s c).map (fun m => (pollContracts c m o dv).1) := by
  induction s with
  | nil => rfl
  | cons cm rest ih =>
    by_cases hc : cm.1 = c
    · rw [List.map_cons]
      simp [lookupChat, hc]
    · rw [List.map_cons]
      simp [lookupChat, hc, ih]

theorem lookupC_pollContracts_fail (c0 : Int) (m : List (Str × EntrySt))
    (o : Oracle) (dv : Deliver) (k0 : Str)
    (hfail : fetchFails (o c0 k0))
    (halive : ∀ st, lookupC m k0 = some st → ¬ st.alerts_sent ≥ 2) :
    lookupC (pollContracts c0 m o dv).1 k0 = lookupC m k0 := by
  induction m with
  | nil => rfl
  | cons ke rest ih =>
    obtain ⟨k1, e1⟩ := ke
    have ih2 := fun hv => ih hv
    simp only [pollContracts] at ih2 ⊢
    by_cases hk : k1 = k0
    · subst hk
      have hA := halive e1 (by simp [lookupC])
      have hpe : pollEntry e1 (o c0 k1) (dv c0 k1) = noStep e1 :=
        pollEntry_fail e1 _ _ hA hfail
      simp [List.filterMap_cons, hpe, noStep, lookupC]
    · by_cases hr : (pollEntry e1 (o c0 k1) (dv c0 k1)).remove = true
      · simp only [List.map_cons, List.filterMap_cons, hr, if_true, lookupC,
          if_neg hk]
        exact ih2 (fun st h => halive st (by simp [lookupC, hk, h]))
      · simp only [List.map_cons, List.filterMap_cons, hr, if_false,
          Bool.false_eq_true, lookupC, if_neg hk]
        exact ih2 (fun st h => halive st (by simp [lookupC, hk, h]))

theorem pollContracts_oracle_congr (c : Int) (m : List (Str × EntrySt))
    (o o' : Oracle) (dv : Deliver) (h : ∀ k, o' c k = o c k) :
    pollContracts c m o' dv = pollContracts c m o dv := by
  have hm : m.map (fun ke => (ke.1, pollEntry ke.2 (o' c ke.1) (dv c ke.1))) =
      m.map (fun ke => (ke.1, pollEntry ke.2 (o c ke.1) (dv c ke.1))) :=
    list_map_congr _ _ _ (fun ke _ => by rw [h ke.1])
  simp only [pollContracts, hm]

theorem lookupC_pollContracts_skip (c0 : Int) (m : List (Str × EntrySt))
    (o o' : Oracle) (dv : Deliver) (k0 k : Str) (hk : ¬ k = k0)
    (h : ∀ k', ¬ k' = k0 → o' c0 k' = o c0 k') :
    lookupC (pollContracts c0 m o' dv).1 k = lookupC (pollContracts c0 m o dv).1 k := by
  induction m with
  | nil => rfl
  | cons ke rest ih =>
    obtain ⟨k1, e1⟩ := ke
    simp only [pollContracts] at ih ⊢
    by_cases hk1 : k1 = k0
    · subst hk1
      have hkk : ¬ k1 = k := fun hh => hk (hh ▸ rfl)
      by_cases hr1 : (pollEntry e1 (o' c0 k1) (dv c0 k1)).remove = true <;>
        by_cases hr2 : (pollEntry e1 (o c0 k1) (dv c0 k1)).remove = true <;>
        simp only [List.map_cons, List.filterMap_cons, hr1, hr2, if_true,
          if_false, Bool.false_eq_true, lookupC, if_neg hkk] <;>
        exact ih
    · have ho : o' c0 k1 = o c0 k1 := h k1 hk1
      simp only [List.map_cons, List.filterMap_cons, ho]
      by_cases hr : (pollEntry e1 (o c0 k1) (dv c0 k1)).remove = true
      · simp only [hr, if_true]
        exact ih
      · simp only [hr, if_false, Bool.false_eq_true, lookupC]
        by_cases hkk : k1 = k
        · simp [hkk]
        · simp only [if_neg hkk]
          exact ih

/-- C7: an entry whose fetch fails (no pair or no usable price) in a
cycle is left completely unchanged by the cycle and is not removed; the
failing step performs no mutation and emits no alert; and the cycle's
outcome for every other entry does not depend on that entry's fetch
result at all (evaluation proceeds to the remaining entries). -/

theorem fetch_failure_isolated (s : State) (o o' : Oracle) (dv : Deliver)
    (c0 : Int) (k0 : Str)
    (hfail : fetchFails (o c0 k0))
    (halive : ∀ st, lookupEntry s c0 k0 = some st → ¬ st.alerts_sent ≥ 2)
    (hagree : ∀ c k, ¬ (c = c0 ∧ k = k0) → o' c k = o c k) :
    lookupEntry (poll_job s o dv).1 c0 k0 = lookupEntry s c0 k0 ∧
    (∀ (st : EntrySt) (b : Bool), ¬ st.alerts_sent ≥ 2 →
      pollEntry st (o c0 k0) b = noStep st) ∧
    (∀ c k, ¬ (c = c0 ∧ k = k0) →
      lookupEntry (poll_job s o' dv).1 c k = lookupEntry (poll_job s o dv).1 c k) := by
  refine ⟨?_, fun st b hA => pollEntry_fail st _ b hA hfail, ?_⟩
  · unfold lookupEntry poll_job
    dsimp only []
    rw [lookupChat_map_poll]
    cases hm : lookupChat s c0 with
    | none => rfl
    | some m =>
      simp only [Option.map_some']
      exact lookupC_pollContracts_fail c0 m o dv k0 hfail
        (fun st h => halive st (by unfold lookupEntry; rw [hm]; exact h))
  · intro c k hck
    unfold lookupEntry poll_job
    dsimp only []
    rw [lookupChat_map_poll, lookupChat_map_poll]
    cases hm : lookupChat s c with
    | none => rfl
    | some m =>
      simp only [Option.map_some']
      by_cases hcc : c = c0
      · subst hcc
        have hk : ¬ k = k0 := fun hh => hck ⟨rfl, hh⟩
        exact lookupC_pollContracts_skip c m o o' dv k0 k hk
          (fun k' hk' => hagree c k' (fun hpair => hk' hpair.2))
      · rw [pollContracts_oracle_congr c m o o' dv
          (fun k' => hagree c k' (fun hp => hcc hp.1))]

/-- Witness for C7: a two-entry owner whose first entry's fetch fails. -/
theorem fetch_failure_isolated_witness :
    lookupEntry (poll_job state7 oracle7 dvTrue).1 1 ['a'] =
      lookupEntry state7 1 ['a'] ∧
    pollEntry egEntry (oracle7 1 ['a']) true = noStep egEntry ∧
    lookupEntry (poll_job state7 oracle7' dvTrue).1 1 ['b'] =
      lookupEntry (poll_job state7 oracle7 dvTrue).1 1 ['b'] := by
  obtain ⟨h1, h2, h3⟩ := fetch_failure_isolated state7 oracle7 oracle7' dvTrue 1 ['a']
    (Or.inl rfl)
    (fun st h => by
      have h4 : some egEntry = some st := by
        rw [show lookupEntry state7 1 (['a'] : Str) = some egEntry from rfl] at h
        exact h
      rw [← Option.some.inj h4]
      decide)
    (fun c k hck => by simp [oracle7', oracle7, hck])
  exact ⟨h1, h2 egEntry true (by decide), h3 1 ['b'] (by decide)⟩



/-! ### The /add command

`add_cmd` from the source, after the front end has split the message
into `contract low high [name]` (argument splitting and reply rendering
stay outside the model).  The initial pair resolution is the same
external fetch, passed in as an `Option Pair`; the third component of
the result records whether that fetch was attempted. -/

theorem lookupEntry_append_empty (s : State) (chat c : Int) (k : Str) :
    lookupEntry (s ++ [(chat, [])]) c k = lookupEntry s c k := by
  induction s with
  | nil =>
    by_cases hc : chat = c <;> simp [lookupEntry, lookupChat, hc, lookupC]
  | cons cm rest ih =>
    by_cases hc : cm.1 = c
    · simp [lookupEntry, lookupChat, hc]
    · simpa [lookupEntry, lookupChat, hc] using ih

theorem lookupEntry_ensure (s : State) (chat c : Int) (k : Str) :
    lookupEntry (ensure_chat s chat) c k = lookupEntry s c k := by
  unfold ensure_chat
  split_ifs with h
  · rfl
  · exact lookupEntry_append_empty s chat c k

/-- C3 (amended): a call of `add` whose bounds parse as decimals with
`low ≥ high` is rejected with the invalid-range reply, queries no price
source, inserts or overwrites no entry (every entry lookup is
unchanged), and at most creates an empty block for a previously unseen
owner.  A negative `low` with `low < high` is NOT rejected — the code
validates only `low < high`. -/

theorem add_invalid_range_rejects (s : State) (chat : Int)
    (contract Ls Hs nameGiven : Str) (fetch : Option Pair) (L H : Dec)
    (hL : parseDec Ls = some L) (hH : parseDec Hs = some H)
    (hge : ¬ Dec.lt L H = true) :
    (add_cmd s chat contract Ls Hs nameGiven fetch).1 = AddRes.invalidRange ∧
    (add_cmd s chat contract Ls Hs nameGiven fetch).2.2 = false ∧
    (add_cmd s chat contract Ls Hs nameGiven fetch).2.1 = ensure_chat s chat ∧
    (∀ (c : Int) (k : Str),
      lookupEntry (add_cmd s chat contract Ls Hs nameGiven fetch).2.1 c k =
        lookupEntry s c k) := by
  simp only [add_cmd, hL, hH, if_neg hge]
  exact ⟨trivial, trivial, trivial, fun c k => lookupEntry_ensure s chat c k⟩

/-- C3 counterexample: `add` with `low = -2 < high = -1` — a negative
low — is accepted and inserts an entry, refuting "low negative is
rejected with InvalidRange and the collection left unchanged". -/
theorem add_negative_low_accepted :
    (add_cmd [] 1 ['c'] ['-', '2'] ['-', '1'] [] (some pairOk)).1 = AddRes.ok ∧
    (lookupEntry (add_cmd [] 1 ['c'] ['-', '2'] ['-', '1'] [] (some pairOk)).2.1
      1 ['c']).isSome = true :=
  ⟨rfl, rfl⟩

/-- Witness for C3 (amended) at `low = 2 ≥ high = 1`. -/

theorem add_invalid_range_rejects_witness :
    (add_cmd [] 1 ['c'] ['2'] ['1'] [] none).1 = AddRes.invalidRange ∧
    (add_cmd [] 1 ['c'] ['2'] ['1'] [] none).2.2 = false ∧
    (add_cmd [] 1 ['c'] ['2'] ['1'] [] none).2.1 = ensure_chat [] 1 ∧
    lookupEntry (add_cmd [] 1 ['c'] ['2'] ['1'] [] none).2.1 1 ['c'] =
      lookupEntry [] 1 ['c'] := by
  obtain ⟨h1, h2, h3, h4⟩ := add_invalid_range_rejects [] 1 ['c'] ['2'] ['1'] []
    none ⟨2, 0⟩ ⟨1, 0⟩ rfl rfl (by decide)
  exact ⟨h1, h2, h3, h4 1 ['c']⟩

/-- C10: a call of `add` whose low or high does not parse as a decimal
is rejected with the number-format reply (a different reply than
InvalidRange), attempts no price-source fetch, and inserts or
overwrites no entry. -/

theorem add_unparseable_rejected (s : State) (chat : Int)
    (contract Ls Hs nameGiven : Str) (fetch : Option Pair)
    (h : parseDec Ls = none ∨ parseDec Hs = none) :
    (add_cmd s chat contract Ls Hs nameGiven fetch).1 = AddRes.numberErr ∧
    (add_cmd s chat contract Ls Hs nameGiven fetch).1 ≠ AddRes.invalidRange ∧
    (add_cmd s chat contract Ls Hs nameGiven fetch).2.2 = false ∧
    (∀ (c : Int) (k : Str),
      lookupEntry (add_cmd s chat contract Ls Hs nameGiven fetch).2.1 c k =
        lookupEntry s c k) := by
  have hmain : (add_cmd s chat contract Ls Hs nameGiven fetch) =
      (AddRes.numberErr, ensure_chat s chat, false) := by
    rcases h with h | h
    · simp [add_cmd, h]
    · cases hLs : parseDec Ls with
      | none => simp [add_cmd, hLs]
      | some L => simp [add_cmd, hLs, h]
  rw [hmain]
  exact ⟨rfl, by simp, rfl, fun c k => lookupEntry_ensure s chat c k⟩

/-- Witness for C10 at a non-numeric low bound. -/

theorem add_unparseable_rejected_witness :
    (add_cmd [] 1 ['c'] ['x'] ['1'] [] none).1 = AddRes.numberErr ∧
    (add_cmd [] 1 ['c'] ['x'] ['1'] [] none).1 ≠ AddRes.invalidRange ∧
    (add_cmd [] 1 ['c'] ['x'] ['1'] [] none).2.2 = false ∧
    lookupEntry (add_cmd [] 1 ['c'] ['x'] ['1'] [] none).2.1 1 ['c'] =
      lookupEntry [] 1 ['c'] := by
  obtain ⟨h1, h2, h3, h4⟩ := add_unparseable_rejected [] 1 ['c'] ['x'] ['1'] []
    none (Or.inl rfl)
  exact ⟨h1, h2, h3, h4 1 ['c']⟩

end Fib75
